import Mathlib

/-!
Verification of the HTTP Range-request header codec (`Accept-Ranges`, `Range`,
`Content-Range`) of the `http-types` repository, `src/range/`.

Strings are embedded as `List Char` (Rust `&str` values over the characters;
all the grammar here is ASCII, and the byte-indexed prefix drops in the source
are performed only after an ASCII prefix check, so character and byte indices
agree). Rust `u64` values are embedded as `Nat` together with an explicit
`< 2 ^ 64` bound where the width matters; `u64` wrapping subtraction is
written with an explicit `% 2 ^ 64`. Fallible operations return `Except Err`,
mirroring `crate::Result` with its status-code-plus-message error.
-/

/-- The set of characters Rust's `char::is_whitespace` recognizes
(Unicode property White_Space), used by `str::trim` / `str::trim_start`. -/
def rustWhitespace : List Nat :=
  [0x9, 0xA, 0xB, 0xC, 0xD, 0x20, 0x85, 0xA0, 0x1680,
   0x2000, 0x2001, 0x2002, 0x2003, 0x2004, 0x2005, 0x2006, 0x2007,
   0x2008, 0x2009, 0x200A, 0x2028, 0x2029, 0x202F, 0x205F, 0x3000]

/-- Embedding of Rust `char::is_whitespace`. -/
def isWs (c : Char) : Bool :=
  rustWhitespace.contains c.toNat

/-- Embedding of Rust `str::trim_start`. -/
def trimLeft (s : List Char) : List Char :=
  s.dropWhile isWs

/-- Embedding of Rust `str::trim_end`. -/
def trimRight (s : List Char) : List Char :=
  (s.reverse.dropWhile isWs).reverse

/-- Embedding of Rust `str::trim` (both ends). -/
def trim (s : List Char) : List Char :=
  trimRight (trimLeft s)

/-- Embedding of Rust `str::splitn(2, sep)`: the part before the first
occurrence of `sep`, and — when `sep` occurs — the part after it. -/
def splitFirst (sep : Char) : List Char → List Char × Option (List Char)
  | [] => ([], none)
  | c :: rest =>
    if c = sep then ([], some rest)
    else
      let p := splitFirst sep rest
      (c :: p.1, p.2)

/-- Embedding of Rust `str::split(sep)`: always at least one fragment, and an
empty input yields the single empty fragment, exactly as in Rust. -/
def splitAll (sep : Char) : List Char → List (List Char)
  | [] => [[]]
  | c :: rest =>
    match splitAll sep rest with
    | [] => [[]]
    | g :: gs => if c = sep then [] :: g :: gs else (c :: g) :: gs

/-- Embedding of Rust `u64::from_str` (`FromStr` for `u64`): an optional
leading `+`, then one or more ASCII digits, rejecting values that overflow
the 64-bit range. -/
def parseU64 (s : List Char) : Option Nat :=
  let ds := match s with
    | c :: rest => if c = '+' then rest else c :: rest
    | [] => []
  if ds = [] then none
  else if ds.all Char.isDigit then
    let v := ds.foldl (fun a c => a * 10 + (c.toNat - 48)) 0
    if v < 2 ^ 64 then some v else none
  else none

/-- The character of a decimal digit value. -/
def digitCh (d : Nat) : Char :=
  Char.ofNat (48 + d)

/-- Little-endian decimal digits of `n`, with explicit structural fuel so the
definition reduces in the kernel; `natCharsFuel_eq_digits` relates it to
`Nat.digits`. -/
def toDigitsRevFuel : Nat → Nat → List Nat
  | 0, _ => []
  | fuel + 1, n => if n = 0 then [] else n % 10 :: toDigitsRevFuel fuel (n / 10)

/-- Embedding of Rust `u64`'s `Display` (decimal rendering, `0` included). -/
def natChars (n : Nat) : List Char :=
  if n = 0 then ['0'] else ((toDigitsRevFuel n n).map digitCh).reverse

/-- The structured error of `http_types::Error::from_str`: an HTTP status
code and a message. -/
structure Err where
  status : Nat
  msg : List Char
deriving DecidableEq

/-- Decidable equality of `Except` results, for evaluating the embedding on
concrete inputs. -/
instance {e a : Type} [DecidableEq e] [DecidableEq a] : DecidableEq (Except e a) := fun x y =>
  match x, y with
  | .ok u, .ok v =>
    if h : u = v then .isTrue (by rw [h])
    else .isFalse (by intro hc; cases hc; exact h rfl)
  | .ok _, .error _ => .isFalse (by intro hc; cases hc)
  | .error _, .ok _ => .isFalse (by intro hc; cases hc)
  | .error u, .error v =>
    if h : u = v then .isTrue (by rw [h])
    else .isFalse (by intro hc; cases hc; exact h rfl)

/-- Message of every byte-range grammar error (`byte_range.rs`, `byte_ranges.rs`). -/
def rangeMsg : List Char :=
  "Invalid Range header for byte ranges".toList

/-- Message of every Content-Range error (`byte_content_range.rs`). -/
def contentRangeMsg : List Char :=
  "Invalid Content-Range value".toList

/-- `Error::from_str(StatusCode::RequestedRangeNotSatisfiable, "Invalid Range header for byte ranges")`. -/
def rangeErr416 : Err :=
  ⟨416, rangeMsg⟩

/-- `Error::from_str(StatusCode::BadRequest, "Invalid Range header for byte ranges")`. -/
def rangeErr400 : Err :=
  ⟨400, rangeMsg⟩

/-- `Error::from_str(StatusCode::RequestedRangeNotSatisfiable, "Invalid Content-Range value")`. -/
def contentRangeErr416 : Err :=
  ⟨416, contentRangeMsg⟩

/-- `ByteRange` (`byte_range.rs`): a single HTTP byte range with optional
start and optional end bound. The source field `end` is a Lean keyword and
is embedded as `end_`. -/
structure ByteRange where
  start : Option Nat
  end_ : Option Nat
deriving DecidableEq

/-- `ByteRange::new`. -/
def ByteRange.new (start end_ : Option Nat) : ByteRange :=
  ⟨start, end_⟩

/-- One bound comparison of `ByteRange::match_size`: a present bound `v`
passes when `v > m` is false, where `m` is the compared limit. -/
def boundFits (b : Option Nat) (m : Nat) : Bool :=
  match b with
  | some v => decide (v ≤ m)
  | none => true

/-- `ByteRange::match_size`: both present bounds are compared against
`size - 1`, computed in wrapping `u64` arithmetic (the source release-profile
semantics; there is no guard for `size = 0`). -/
def ByteRange.matchSize (r : ByteRange) (size : Nat) : Bool :=
  let m := (size + (2 ^ 64 - 1)) % 2 ^ 64
  boundFits r.start m && boundFits r.end_ m

/-- Checked `u64` subtraction (`u64::checked_sub`), for stating what the
debug-profile semantics of `size - 1` would do at `size = 0`. -/
def checkedSub (a b : Nat) : Option Nat :=
  if b ≤ a then some (a - b) else none

/-- `str_to_bound` (`byte_range.rs`): a missing or empty field is an absent
bound; a non-empty field must parse as `u64`, else error 416. -/
def strToBound : Option (List Char) → Except Err (Option Nat)
  | none => .ok none
  | some s =>
    if s = [] then .ok none
    else
      match parseU64 s with
      | some n => .ok (some n)
      | none => .error rangeErr416

/-- `ByteRange::from_str`: trim, split on the first `-`, parse each bound,
reject both-absent and `end ≤ start`. -/
def ByteRange.fromStr (s : List Char) : Except Err ByteRange :=
  let p := splitFirst '-' (trim s)
  match strToBound (some p.1) with
  | .error e => .error e
  | .ok start =>
    match strToBound p.2 with
    | .error e => .error e
    | .ok end_ =>
      if start.isNone && end_.isNone then .error rangeErr416
      else
        match start, end_ with
        | some st, some en =>
          if en ≤ st then .error rangeErr416 else .ok ⟨start, end_⟩
        | _, _ => .ok ⟨start, end_⟩

/-- Rendering of one optional bound in `Display for ByteRange`: absent bound
renders as the empty string. -/
def optChars : Option Nat → List Char
  | none => []
  | some n => natChars n

/-- `Display for ByteRange`: `<start?>-<end?>`. -/
def ByteRange.render (r : ByteRange) : List Char :=
  optChars r.start ++ '-' :: optChars r.end_

/-- `ByteRanges` (`byte_ranges.rs`): the ordered range set of a `Range` header. -/
structure ByteRanges where
  ranges : List ByteRange
deriving DecidableEq

/-- `ByteRanges::RANGE_PREFIX`. -/
def rangePrefixTok : List Char :=
  "bytes=".toList

/-- `ByteRanges::match_size`: the loop body — fail with 416 at the first
range whose bounds do not fit the document size. -/
def matchSizeList (size : Nat) : List ByteRange → Except Err Unit
  | [] => .ok ()
  | r :: rest =>
    if r.matchSize size then matchSizeList size rest else .error rangeErr416

/-- `ByteRanges::match_size`. -/
def ByteRanges.matchSize (rs : ByteRanges) (size : Nat) : Except Err Unit :=
  matchSizeList size rs.ranges

/-- The `for range_str in s.split(',')` loop of `ByteRanges::from_str`:
parse each fragment, propagating the first error. -/
def parseRangeList : List (List Char) → Except Err (List ByteRange)
  | [] => .ok []
  | f :: fs =>
    match ByteRange.fromStr f with
    | .error e => .error e
    | .ok r =>
      match parseRangeList fs with
      | .error e => .error e
      | .ok rs => .ok (r :: rs)

/-- `ByteRanges::from_str`: require the `bytes=` prefix (else 400), drop it,
trim leading whitespace, split on `,`, parse every fragment, and reject an
empty resulting list with 400. -/
def ByteRanges.fromStr (s : List Char) : Except Err ByteRanges :=
  if ¬ rangePrefixTok.isPrefixOf s then .error rangeErr400
  else
    match parseRangeList (splitAll ',' (trimLeft (s.drop 6))) with
    | .error e => .error e
    | .ok rs => if rs = [] then .error rangeErr400 else .ok ⟨rs⟩

/-- `ByteRanges::from_headers`, abstracted over the container per the
headers-container contract: the argument is the ordered value list stored
under `Range`, or `none` when the header is absent. The contract guarantees
a present name holds at least one value (the source unwraps), so the
empty-list case is unreachable; it is embedded as absence. -/
def ByteRanges.fromHeaders (h : Option (List (List Char))) :
    Except Err (Option ByteRanges) :=
  match h with
  | none => .ok none
  | some vals =>
    match vals.getLast? with
    | none => .ok none
    | some s =>
      if rangePrefixTok.isPrefixOf s then
        match ByteRanges.fromStr s with
        | .error e => .error e
        | .ok v => .ok (some v)
      else .ok none

/-- The comma-joining loop of `Display for ByteRanges`: a comma before every
rendered element except the first. -/
def joinComma : List (List Char) → List Char
  | [] => []
  | x :: xs => x ++ xs.foldr (fun y acc => ',' :: y ++ acc) []

/-- `Display for ByteRanges`: `bytes=` then the comma-joined ranges. -/
def ByteRanges.render (rs : ByteRanges) : List Char :=
  rangePrefixTok ++ joinComma (rs.ranges.map ByteRange.render)

/-- `ByteContentRange` (`byte_content_range.rs`): optional total size and
optional resolved range, in the source's field order. -/
structure ByteContentRange where
  size : Option Nat
  range : Option ByteRange
deriving DecidableEq

/-- `ByteContentRange::CONTENT_RANGE_PREFIX`. -/
def contentRangePrefixTok : List Char :=
  "bytes".toList

/-- The `*` field token. -/
def starTok : List Char :=
  "*".toList

/-- The left-field computation of `ByteContentRange::from_str`: `*` means
range absent, anything else must be a byte-range carrying both bounds; any
failure is the Content-Range error. -/
def contentRangePart (X : List Char) : Except Err (Option ByteRange) :=
  if X = starTok then .ok none
  else
    match ByteRange.fromStr X with
    | .error _ => .error contentRangeErr416
    | .ok r =>
      if r.start.isNone || r.end_.isNone then .error contentRangeErr416
      else .ok (some r)

/-- The right-field computation of `ByteContentRange::from_str`: the field
is mandatory (`s.next().ok_or_else(fn_err)?`), `*` means size absent,
anything else must be a `u64`. -/
def contentSizePart : Option (List Char) → Except Err (Option Nat)
  | none => .error contentRangeErr416
  | some sizeS =>
    if sizeS = starTok then .ok none
    else
      match parseU64 sizeS with
      | some n => .ok (some n)
      | none => .error contentRangeErr416

/-- The body of `ByteContentRange::from_str` after the `/` split, over the
two fields: evaluate the left field, then the right, then reject both-absent
and `size ≤ end`. -/
def contentParseFields (X : List Char) (Y : Option (List Char)) :
    Except Err ByteContentRange :=
  match contentRangePart X with
  | .error e => .error e
  | .ok range =>
    match contentSizePart Y with
    | .error e => .error e
    | .ok size =>
      if range.isNone && size.isNone then .error contentRangeErr416
      else
        match size, range.bind ByteRange.end_ with
        | some sz, some en =>
          if sz ≤ en then .error contentRangeErr416 else .ok ⟨size, range⟩
        | _, _ => .ok ⟨size, range⟩

/-- `ByteContentRange::from_str`: require the `bytes` prefix, drop it, trim
leading whitespace, split on the first `/`, and evaluate the two fields;
every failure carries status 416 and the Content-Range message. -/
def ByteContentRange.fromStr (s : List Char) : Except Err ByteContentRange :=
  if ¬ contentRangePrefixTok.isPrefixOf s then .error contentRangeErr416
  else
    let p := splitFirst '/' (trimLeft (s.drop 5))
    contentParseFields p.1 p.2

/-- `ByteContentRange::from_headers`, abstracted over the container exactly
as `ByteRanges.fromHeaders` is. -/
def ByteContentRange.fromHeaders (h : Option (List (List Char))) :
    Except Err (Option ByteContentRange) :=
  match h with
  | none => .ok none
  | some vals =>
    match vals.getLast? with
    | none => .ok none
    | some s =>
      if contentRangePrefixTok.isPrefixOf s then
        match ByteContentRange.fromStr s with
        | .error e => .error e
        | .ok v => .ok (some v)
      else .ok none

/-- `Display for ByteContentRange`: `bytes <range-or-*>/<size-or-*>`. -/
def ByteContentRange.render (c : ByteContentRange) : List Char :=
  contentRangePrefixTok ++ ' ' ::
    (match c.range with
     | some r => r.render
     | none => starTok) ++ '/' ::
    (match c.size with
     | some sz => natChars sz
     | none => starTok)

/-- `AcceptRanges` (`accept_ranges.rs`). The struct declaration in the
source file names a single `unit: Option<Unit>` field, but every operation
of the same file (`with_bytes`, `with_other`, `bytes`, `other`, `from_str`,
`value`, `Display`) reads and writes fields `bytes: bool` and
`other: Option<String>`; the embedding carries the fields the operations
use. -/
structure AcceptRanges where
  bytes : Bool
  other : Option (List Char)
deriving DecidableEq

/-- The `none` wire token (`AcceptRanges::NONE`). -/
def noneTok : List Char :=
  "none".toList

/-- `AcceptRanges::new` / `Default`. -/
def AcceptRanges.new : AcceptRanges :=
  ⟨false, none⟩

/-- `AcceptRanges::with_bytes`. -/
def AcceptRanges.withBytes : AcceptRanges :=
  ⟨true, none⟩

/-- `AcceptRanges::with_other`. -/
def AcceptRanges.withOther (s : List Char) : AcceptRanges :=
  ⟨false, some s⟩

/-- `AcceptRanges::from_str`: never fails. -/
def AcceptRanges.fromStr (s : List Char) : Except Err AcceptRanges :=
  .ok (if s = noneTok then AcceptRanges.new
       else if s = contentRangePrefixTok then AcceptRanges.withBytes
       else AcceptRanges.withOther s)

/-- `AcceptRanges::value` / `Display`: a stored other-token wins, else
`bytes` or `none` by the flag. -/
def AcceptRanges.render (a : AcceptRanges) : List Char :=
  match a.other with
  | some o => o
  | none => if a.bytes then contentRangePrefixTok else noneTok

/-- `AcceptRanges::from_headers`: no prefix filter — the last stored value
is always parsed (and parsing never fails). -/
def AcceptRanges.fromHeaders (h : Option (List (List Char))) :
    Except Err (Option AcceptRanges) :=
  match h with
  | none => .ok none
  | some vals =>
    match vals.getLast? with
    | none => .ok none
    | some s =>
      match AcceptRanges.fromStr s with
      | .error e => .error e
      | .ok v => .ok (some v)

/-- Formalisation of the claim's field split for `ByteRange::from_str`:
trim surrounding whitespace, split on the first `-`. -/
def ByteRange.claimFields (s : List Char) : List Char × Option (List Char) :=
  splitFirst '-' (trim s)

/-- Formalisation of the claim's per-field rule: an empty field is an absent
bound (`some none`), a non-empty field must be a valid `u64`
(`none` = invalid). -/
def claimBound (f : List Char) : Option (Option Nat) :=
  if f = [] then some none else (parseU64 f).map some

/-- The claim's start bound of `ByteRange::from_str`'s input. -/
def ByteRange.claimStart (s : List Char) : Option (Option Nat) :=
  claimBound (ByteRange.claimFields s).1

/-- The claim's end bound: a missing second field (no `-` in the input) is an
absent bound. -/
def ByteRange.claimEnd (s : List Char) : Option (Option Nat) :=
  match (ByteRange.claimFields s).2 with
  | none => some none
  | some g => claimBound g

/-- Formalisation of the claim's rejection condition for
`ByteRange::from_str`: a non-empty field that is not a valid `u64`, both
bounds absent, or both present with `end ≤ start`. -/
def ByteRange.claimRejects (s : List Char) : Bool :=
  match ByteRange.claimStart s, ByteRange.claimEnd s with
  | none, _ => true
  | _, none => true
  | some none, some none => true
  | some (some a), some (some b) => decide (b ≤ a)
  | _, _ => false

/-- Formalisation of the claim's field split for
`ByteContentRange::from_str`: skip the 5-character `bytes` prefix, trim
leading whitespace, split on the first `/`. -/
def ByteContentRange.claimFields (s : List Char) : List Char × Option (List Char) :=
  splitFirst '/' (trimLeft (s.drop 5))

/-- The claim's left field of a Content-Range value: `*` means range absent;
otherwise the field must be a byte-range carrying both start and end
(`none` = invalid). -/
def ByteContentRange.claimRange (s : List Char) : Option (Option ByteRange) :=
  let f := (ByteContentRange.claimFields s).1
  if f = starTok then some none
  else
    match ByteRange.fromStr f with
    | .ok r => if r.start.isSome && r.end_.isSome then some (some r) else none
    | .error _ => none

/-- The claim's right field of a Content-Range value: `*` means size absent;
otherwise the field must be a valid `u64`; a missing field (no `/`) is
invalid. -/
def ByteContentRange.claimSize (s : List Char) : Option (Option Nat) :=
  match (ByteContentRange.claimFields s).2 with
  | none => none
  | some g => if g = starTok then some none else (parseU64 g).map some

/-- Formalisation of the claim's rejection condition for
`ByteContentRange::from_str` on a `bytes`-prefixed input: bad left field,
bad (or missing) right field, both absent, or `size ≤ range.end`. -/
def ByteContentRange.claimRejects (s : List Char) : Bool :=
  match ByteContentRange.claimRange s, ByteContentRange.claimSize s with
  | none, _ => true
  | _, none => true
  | some none, some none => true
  | some (some r), some (some sz) =>
    match r.end_ with
    | some en => decide (sz ≤ en)
    | none => false
  | _, _ => false

/-- The parse-compatible validity of a `ByteRange` value: at least one bound
present, `start < end` when both are, and bounds in `u64` range. -/
def ByteRange.wfB (r : ByteRange) : Bool :=
  (r.start.isSome || r.end_.isSome) &&
  (match r.start, r.end_ with
   | some a, some b => decide (a < b)
   | _, _ => true) &&
  (match r.start with
   | some a => decide (a < 2 ^ 64)
   | none => true) &&
  (match r.end_ with
   | some b => decide (b < 2 ^ 64)
   | none => true)

/-- The parse-compatible validity of a `ByteRanges` value: a non-empty list
of valid ranges. -/
def ByteRanges.wfB (rs : ByteRanges) : Bool :=
  !rs.ranges.isEmpty && rs.ranges.all ByteRange.wfB

/-- The parse-compatible validity of a `ByteContentRange` value: not both
absent, a present range carries both bounds and is valid, size in `u64`
range, and `end < size` when both are present. -/
def ByteContentRange.wfB (c : ByteContentRange) : Bool :=
  (c.range.isSome || c.size.isSome) &&
  (match c.range with
   | some r => r.start.isSome && r.end_.isSome && r.wfB
   | none => true) &&
  (match c.size with
   | some sz => decide (sz < 2 ^ 64)
   | none => true) &&
  (match c.size, c.range.bind ByteRange.end_ with
   | some sz, some en => decide (en < sz)
   | _, _ => true)

/-- The render-compatible validity of an `AcceptRanges` value: either no
stored other-token, or the token is stored with the `bytes` flag unset and
differs from the reserved wire tokens. -/
def AcceptRanges.wfB (a : AcceptRanges) : Bool :=
  match a.other with
  | none => true
  | some o => !a.bytes && !(decide (o = noneTok)) && !(decide (o = contentRangePrefixTok))

/-- Every entry of the fuel-bounded digit list is a decimal digit. -/
theorem toDigitsRevFuel_mem_lt (f : Nat) :
    ∀ (n d : Nat), d ∈ toDigitsRevFuel f n → d < 10 := by
  induction f with
  | zero => intro n d h; simp [toDigitsRevFuel] at h
  | succ f ih =>
    intro n d h
    by_cases hn : n = 0
    · simp [toDigitsRevFuel, hn] at h
    · simp only [toDigitsRevFuel, if_neg hn, List.mem_cons] at h
      rcases h with h | h
      · subst h; exact Nat.mod_lt _ (by norm_num)
      · exact ih _ _ h

/-- The character of a decimal digit value: all the character-class facts
the grammar needs. -/
theorem digitCh_facts (d : Nat) (h : d < 10) :
    (digitCh d).isDigit = true ∧ isWs (digitCh d) = false ∧ digitCh d ≠ '-' ∧
    digitCh d ≠ ',' ∧ digitCh d ≠ '/' ∧ digitCh d ≠ '+' ∧ digitCh d ≠ '*' ∧
    (digitCh d).toNat - 48 = d := by
  interval_cases d <;> exact ⟨by decide, by decide, by decide, by decide,
    by decide, by decide, by decide, by decide⟩

/-- Every character of a rendered number is a digit character, with the
character-class facts the grammar needs. -/
theorem natChars_mem (n : Nat) (c : Char) (h : c ∈ natChars n) :
    c.isDigit = true ∧ isWs c = false ∧ c ≠ '-' ∧
    c ≠ ',' ∧ c ≠ '/' ∧ c ≠ '+' ∧ c ≠ '*' := by
  unfold natChars at h
  by_cases hn : n = 0
  · rw [if_pos hn] at h
    simp only [List.mem_singleton] at h
    subst h
    exact ⟨by decide, by decide, by decide, by decide, by decide, by decide, by decide⟩
  · rw [if_neg hn] at h
    simp only [List.mem_reverse, List.mem_map] at h
    obtain ⟨d, hd, rfl⟩ := h
    have hlt := toDigitsRevFuel_mem_lt n n d hd
    have hf := digitCh_facts d hlt
    exact ⟨hf.1, hf.2.1, hf.2.2.1, hf.2.2.2.1, hf.2.2.2.2.1, hf.2.2.2.2.2.1,
      hf.2.2.2.2.2.2.1⟩

/-- A rendered number is never the empty string. -/
theorem natChars_ne_nil (n : Nat) : natChars n ≠ [] := by
  unfold natChars
  by_cases hn : n = 0
  · simp [hn]
  · rw [if_neg hn]
    rcases Nat.exists_eq_succ_of_ne_zero hn with ⟨m, rfl⟩
    simp [toDigitsRevFuel]

/-- With enough fuel the fuel-bounded digit list is `Nat.digits 10`. -/
theorem toDigitsRevFuel_eq_digits (f : Nat) :
    ∀ n : Nat, n ≤ f → toDigitsRevFuel f n = Nat.digits 10 n := by
  induction f with
  | zero =>
    intro n hn
    interval_cases n
    simp [toDigitsRevFuel]
  | succ f ih =>
    intro n hn
    by_cases h0 : n = 0
    · simp [toDigitsRevFuel, h0]
    · rw [toDigitsRevFuel, if_neg h0,
        Nat.digits_def' (by norm_num : (1 : Nat) < 10) (Nat.pos_of_ne_zero h0),
        ih (n / 10) (by omega)]

/-- The digit-character rendering of a positive number, via `Nat.digits`. -/
theorem natChars_eq_digits (n : Nat) (h : n ≠ 0) :
    natChars n = ((Nat.digits 10 n).map digitCh).reverse := by
  rw [natChars, if_neg h, toDigitsRevFuel_eq_digits n n le_rfl]

/-- Folding the digit-value step over a rendered digit list recovers
`Nat.ofDigits`. -/
theorem foldl_digitCh (L : List Nat) :
    ∀ a : Nat, (∀ d ∈ L, d < 10) →
    ((L.map digitCh).reverse).foldl (fun x c => x * 10 + (c.toNat - 48)) a
      = a * 10 ^ L.length + Nat.ofDigits 10 L := by
  induction L with
  | nil => intro a _; simp [Nat.ofDigits_nil]
  | cons d L ih =>
    intro a hd
    have hstep : ((d :: L).map digitCh).reverse
        = (L.map digitCh).reverse ++ [digitCh d] := by
      simp [List.reverse_cons]
    rw [hstep, List.foldl_append, List.foldl_cons, List.foldl_nil,
      ih a (fun x hx => hd x (List.mem_cons_of_mem d hx)),
      (digitCh_facts d (hd d (List.mem_cons_self d L))).2.2.2.2.2.2.2,
      Nat.ofDigits_cons]
    simp only [Nat.cast_id, List.length_cons]
    ring

/-- Parsing inverts rendering on 64-bit numbers: the `u64::from_str` /
`Display` round-trip. -/
theorem parseU64_natChars (n : Nat) (h : n < 2 ^ 64) :
    parseU64 (natChars n) = some n := by
  by_cases hn : n = 0
  · subst hn; decide
  · obtain ⟨c, cs, hccs⟩ :=
      List.exists_cons_of_ne_nil (natChars_ne_nil n)
    have hcmem : c ∈ natChars n := by rw [hccs]; exact List.mem_cons_self c cs
    have hcfacts := natChars_mem n c hcmem
    have hall : (c :: cs).all Char.isDigit = true := by
      rw [List.all_eq_true]
      intro x hx
      exact (natChars_mem n x (by rw [hccs]; exact hx)).1
    have hfold : (c :: cs).foldl (fun x ch => x * 10 + (ch.toNat - 48)) 0 = n := by
      rw [← hccs, natChars_eq_digits n hn,
        foldl_digitCh (Nat.digits 10 n) 0
          (fun d hd => Nat.digits_lt_base (by norm_num) hd)]
      simp [Nat.ofDigits_digits]
    rw [hccs, parseU64]
    simp only [if_neg hcfacts.2.2.2.2.2.1]
    rw [if_neg (by simp : ¬(c :: cs = [])), if_pos hall, hfold, if_pos h]

/-- `dropWhile` of the whitespace predicate is the identity on
whitespace-free strings. -/
theorem dropWhile_isWs_eq_self (l : List Char) (h : ∀ c ∈ l, isWs c = false) :
    l.dropWhile isWs = l := by
  cases l with
  | nil => rfl
  | cons a t =>
    rw [List.dropWhile_cons, if_neg]
    rw [h a (List.mem_cons_self a t)]
    simp

/-- `trim_start` is the identity on whitespace-free strings. -/
theorem trimLeft_eq_self (l : List Char) (h : ∀ c ∈ l, isWs c = false) :
    trimLeft l = l :=
  dropWhile_isWs_eq_self l h

/-- `trim` is the identity on whitespace-free strings. -/
theorem trim_eq_self (l : List Char) (h : ∀ c ∈ l, isWs c = false) :
    trim l = l := by
  rw [trim, trimLeft_eq_self l h, trimRight,
    dropWhile_isWs_eq_self l.reverse (fun c hc => h c (List.mem_reverse.mp hc)),
    List.reverse_reverse]

/-- `splitn(2, sep)` on a separator-free string: everything before, nothing
after. -/
theorem splitFirst_not_mem (sep : Char) (A : List Char) (h : sep ∉ A) :
    splitFirst sep A = (A, none) := by
  induction A with
  | nil => rfl
  | cons c t ih =>
    have hcs : ¬ c = sep := by
      intro hc; exact h (by rw [← hc]; exact List.mem_cons_self c t)
    rw [splitFirst, if_neg hcs, ih (fun hc => h (List.mem_cons_of_mem c hc))]

/-- `splitn(2, sep)` splits at the first separator. -/
theorem splitFirst_append (sep : Char) (A B : List Char) (h : sep ∉ A) :
    splitFirst sep (A ++ sep :: B) = (A, some B) := by
  induction A with
  | nil => simp [splitFirst]
  | cons c t ih =>
    have hcs : ¬ c = sep := by
      intro hc; exact h (by rw [← hc]; exact List.mem_cons_self c t)
    rw [List.cons_append, splitFirst, if_neg hcs,
      ih (fun hc => h (List.mem_cons_of_mem c hc))]

/-- `split(sep)` always yields at least one fragment. -/
theorem splitAll_ne_nil (sep : Char) (l : List Char) : splitAll sep l ≠ [] := by
  cases l with
  | nil => simp [splitAll]
  | cons c t =>
    rw [splitAll]
    rcases hs : splitAll sep t with _ | ⟨g, gs⟩
    · simp
    · by_cases hc : c = sep <;> simp [hc]

/-- `split(sep)` on a separator-free string is the single fragment. -/
theorem splitAll_not_mem (sep : Char) (A : List Char) (h : sep ∉ A) :
    splitAll sep A = [A] := by
  induction A with
  | nil => rfl
  | cons c t ih =>
    have hcs : ¬ c = sep := by
      intro hc; exact h (by rw [← hc]; exact List.mem_cons_self c t)
    rw [splitAll, ih (fun hc => h (List.mem_cons_of_mem c hc))]
    simp [hcs]

/-- `split(sep)` peels fragments at separators. -/
theorem splitAll_append (sep : Char) (A B : List Char) (h : sep ∉ A) :
    splitAll sep (A ++ sep :: B) = A :: splitAll sep B := by
  induction A with
  | nil =>
    rw [List.nil_append, splitAll]
    rcases hs : splitAll sep B with _ | ⟨g, gs⟩
    · exact absurd hs (splitAll_ne_nil sep B)
    · simp
  | cons c t ih =>
    have hcs : ¬ c = sep := by
      intro hc; exact h (by rw [← hc]; exact List.mem_cons_self c t)
    rw [List.cons_append, splitAll,
      ih (fun hc => h (List.mem_cons_of_mem c hc))]
    rcases hs : splitAll sep B with _ | ⟨g, gs⟩
    · exact absurd hs (splitAll_ne_nil sep B)
    · simp [hcs]

/-- The rendering loop with a comma before every element but the first,
unrolled one step. -/
theorem joinComma_cons_cons (x y : List Char) (ys : List (List Char)) :
    joinComma (x :: y :: ys) = x ++ ',' :: joinComma (y :: ys) := rfl

/-- The rendering loop of `Display for ByteRanges` is comma-intercalation. -/
theorem joinComma_eq_intercalate (L : List (List Char)) :
    joinComma L = List.intercalate [','] L := by
  induction L with
  | nil => rfl
  | cons x xs ih =>
    cases xs with
    | nil => simp [joinComma, List.intercalate]
    | cons y ys =>
      rw [joinComma_cons_cons, ih]
      simp [List.intercalate, List.intersperse]

/-- Every character of a comma-joined list is a comma or a character of a
member. -/
theorem mem_joinComma (L : List (List Char)) (c : Char) (h : c ∈ joinComma L) :
    c = ',' ∨ ∃ l ∈ L, c ∈ l := by
  induction L with
  | nil => simp [joinComma] at h
  | cons x xs ih =>
    cases xs with
    | nil =>
      simp only [joinComma, List.foldr_nil, List.append_nil] at h
      exact Or.inr ⟨x, List.mem_cons_self x [], h⟩
    | cons y ys =>
      rw [joinComma_cons_cons, List.mem_append] at h
      rcases h with h | h
      · exact Or.inr ⟨x, List.mem_cons_self x _, h⟩
      · rcases List.mem_cons.mp h with h | h
        · exact Or.inl h
        · rcases ih h with h | ⟨l, hl, hc⟩
          · exact Or.inl h
          · exact Or.inr ⟨l, List.mem_cons_of_mem x hl, hc⟩

/-- Character-class facts for a rendered optional bound. -/
theorem optChars_mem (b : Option Nat) (c : Char) (h : c ∈ optChars b) :
    c.isDigit = true ∧ isWs c = false ∧ c ≠ '-' ∧
    c ≠ ',' ∧ c ≠ '/' ∧ c ≠ '+' ∧ c ≠ '*' := by
  cases b with
  | none => simp [optChars] at h
  | some n => exact natChars_mem n c h

/-- Character-class facts for a rendered byte range: every character is the
dash or a digit, so none is whitespace, a comma, a slash or a star. -/
theorem byteRange_render_mem (r : ByteRange) (c : Char)
    (h : c ∈ ByteRange.render r) :
    isWs c = false ∧ c ≠ ',' ∧ c ≠ '/' ∧ c ≠ '*' := by
  rw [ByteRange.render] at h
  rcases List.mem_append.mp h with h | h
  · have := optChars_mem r.start c h
    exact ⟨this.2.1, this.2.2.2.1, this.2.2.2.2.1, this.2.2.2.2.2.2⟩
  · rcases List.mem_cons.mp h with h | h
    · subst h
      exact ⟨by decide, by decide, by decide, by decide⟩
    · have := optChars_mem r.end_ c h
      exact ⟨this.2.1, this.2.2.2.1, this.2.2.2.2.1, this.2.2.2.2.2.2⟩

/-- Parsing one rendered bound field recovers the bound. -/
theorem strToBound_optChars (b : Option Nat)
    (hb : ∀ v, b = some v → v < 2 ^ 64) :
    strToBound (some (optChars b)) = .ok b := by
  cases b with
  | none => rfl
  | some v =>
    rw [strToBound, optChars, if_neg (natChars_ne_nil v),
      parseU64_natChars v (hb v rfl)]

/-- The render side of the `ByteRange` round-trip: parsing a rendered valid
byte range recovers it. -/
theorem byteRange_fromStr_render (r : ByteRange) (h : r.wfB = true) :
    ByteRange.fromStr r.render = .ok r := by
  obtain ⟨st, en⟩ := r
  have htrim : trim (ByteRange.render ⟨st, en⟩) = ByteRange.render ⟨st, en⟩ :=
    trim_eq_self _ (fun c hc => (byteRange_render_mem _ c hc).1)
  have hdash : '-' ∉ optChars st :=
    fun hc => (optChars_mem st '-' hc).2.2.1 rfl
  have hsplit : splitFirst '-' (ByteRange.render ⟨st, en⟩)
      = (optChars st, some (optChars en)) := by
    rw [ByteRange.render]
    exact splitFirst_append '-' (optChars st) (optChars en) hdash
  rw [ByteRange.fromStr, htrim, hsplit]
  rw [ByteRange.wfB] at h
  simp only [Bool.and_eq_true, Bool.or_eq_true, decide_eq_true_eq] at h
  cases st with
  | none =>
    cases en with
    | none => simp at h
    | some b =>
      have hb : b < 2 ^ 64 := by
        rcases h with ⟨⟨_, _⟩, hb⟩
        simpa using hb
      rw [strToBound_optChars none (by intro v hv; cases hv),
        strToBound_optChars (some b) (by intro v hv; cases hv; exact hb)]
      rfl
  | some a =>
    cases en with
    | none =>
      have ha : a < 2 ^ 64 := by
        rcases h with ⟨⟨_, ha⟩, _⟩
        simpa using ha
      rw [strToBound_optChars (some a) (by intro v hv; cases hv; exact ha),
        strToBound_optChars none (by intro v hv; cases hv)]
      rfl
    | some b =>
      have hab : a < b := by
        rcases h with ⟨⟨⟨_, hab⟩, _⟩, _⟩
        simpa using hab
      have ha : a < 2 ^ 64 := by
        rcases h with ⟨⟨_, ha⟩, _⟩
        simpa using ha
      have hb : b < 2 ^ 64 := by
        rcases h with ⟨_, hb⟩
        simpa using hb
      rw [strToBound_optChars (some a) (by intro v hv; cases hv; exact ha),
        strToBound_optChars (some b) (by intro v hv; cases hv; exact hb)]
      simp only [Option.isNone_some, Bool.and_self, Bool.false_and,
        if_neg Bool.false_ne_true]
      rw [if_neg (by omega)]

/-- The parsing loop of `ByteRanges::from_str` inverts per-range rendering. -/
theorem parseRangeList_map_render (L : List ByteRange)
    (h : ∀ r ∈ L, r.wfB = true) :
    parseRangeList (L.map ByteRange.render) = .ok L := by
  induction L with
  | nil => rfl
  | cons r rest ih =>
    rw [List.map_cons, parseRangeList,
      byteRange_fromStr_render r (h r (List.mem_cons_self r rest)),
      ih (fun x hx => h x (List.mem_cons_of_mem r hx))]

/-- `split(',')` inverts comma-joining of comma-free fragments. -/
theorem splitAll_joinComma (L : List (List Char)) (hne : L ≠ [])
    (h : ∀ l ∈ L, ',' ∉ l) :
    splitAll ',' (joinComma L) = L := by
  induction L with
  | nil => exact absurd rfl hne
  | cons x xs ih =>
    cases xs with
    | nil =>
      show splitAll ',' (x ++ List.foldr _ [] []) = [x]
      rw [List.foldr_nil, List.append_nil]
      exact splitAll_not_mem ',' x (h x (List.mem_cons_self x []))
    | cons y ys =>
      rw [joinComma_cons_cons,
        splitAll_append ',' x _ (h x (List.mem_cons_self x _)),
        ih (by simp) (fun l hl => h l (List.mem_cons_of_mem x hl))]

/-- The render side of the `ByteRanges` round-trip. -/
theorem byteRanges_fromStr_render (rs : ByteRanges) (h : rs.wfB = true) :
    ByteRanges.fromStr rs.render = .ok rs := by
  obtain ⟨L⟩ := rs
  rw [ByteRanges.wfB] at h
  simp only [Bool.and_eq_true, List.all_eq_true] at h
  obtain ⟨hLne', hLwf⟩ := h
  have hLne : L ≠ [] := by
    cases L
    · simp at hLne'
    · simp
  have hmemF : ∀ l ∈ L.map ByteRange.render, ',' ∉ l := by
    intro l hl hc
    obtain ⟨r, _, rfl⟩ := List.mem_map.mp hl
    exact (byteRange_render_mem r ',' hc).2.1 rfl
  have hws : ∀ c ∈ joinComma (L.map ByteRange.render), isWs c = false := by
    intro c hc
    rcases mem_joinComma _ c hc with rfl | ⟨l, hl, hcl⟩
    · decide
    · obtain ⟨r, _, rfl⟩ := List.mem_map.mp hl
      exact (byteRange_render_mem r c hcl).1
  have hdrop : (ByteRanges.render ⟨L⟩).drop 6 = joinComma (L.map ByteRange.render) := by
    rw [ByteRanges.render]
    have h6 : rangePrefixTok.length = 6 := rfl
    rw [← h6, List.drop_left]
  have hpre : rangePrefixTok.isPrefixOf (ByteRanges.render ⟨L⟩) = true := by
    rw [List.isPrefixOf_iff_prefix, ByteRanges.render]
    exact List.prefix_append _ _
  rw [ByteRanges.fromStr, if_neg (by rw [hpre]; simp), hdrop,
    trimLeft_eq_self _ hws,
    splitAll_joinComma (L.map ByteRange.render) (by simp [hLne]) hmemF,
    parseRangeList_map_render L hLwf]
  show (if L = [] then Except.error rangeErr400
    else Except.ok (ByteRanges.mk L)) = Except.ok (ByteRanges.mk L)
  rw [if_neg hLne]

/-- The render side of the `AcceptRanges` round-trip. -/
theorem acceptRanges_fromStr_render (a : AcceptRanges) (h : a.wfB = true) :
    AcceptRanges.fromStr a.render = .ok a := by
  obtain ⟨b, o⟩ := a
  cases o with
  | none =>
    cases b with
    | false => rfl
    | true => decide
  | some t =>
    rw [AcceptRanges.wfB] at h
    simp only [Bool.and_eq_true, Bool.not_eq_true', decide_eq_true_eq,
      Bool.not_eq_eq_eq_not, Bool.not_true, decide_eq_false_iff_not] at h
    obtain ⟨⟨hb, hn⟩, hby⟩ := h
    rw [AcceptRanges.render, AcceptRanges.fromStr]
    simp only [if_neg hn, if_neg hby]
    rw [AcceptRanges.withOther, hb]

/-- Character-class facts for a rendered Content-Range field: star or
byte-range on the left, star or number on the right — never whitespace,
never a slash. -/
theorem contentField_mem (X : List Char) (c : Char)
    (hX : X = starTok ∨ (∃ r : ByteRange, X = r.render) ∨ ∃ n, X = natChars n)
    (h : c ∈ X) : isWs c = false ∧ c ≠ '/' := by
  rcases hX with rfl | ⟨r, rfl⟩ | ⟨n, rfl⟩
  · rcases List.mem_singleton.mp h with rfl
    exact ⟨by decide, by decide⟩
  · exact ⟨(byteRange_render_mem r c h).1, (byteRange_render_mem r c h).2.2.1⟩
  · exact ⟨(natChars_mem n c h).2.1, (natChars_mem n c h).2.2.2.2.1⟩

/-- The first slash of a rendered Content-Range body is the field separator. -/
theorem contentRange_split (X Y : List Char)
    (hX : X = starTok ∨ (∃ r : ByteRange, X = r.render))
    (hY : Y = starTok ∨ ∃ n, Y = natChars n) :
    trimLeft (' ' :: X ++ '/' :: Y) = X ++ '/' :: Y ∧
    splitFirst '/' (X ++ '/' :: Y) = (X, some Y) := by
  have hXmem : ∀ c ∈ X, isWs c = false ∧ c ≠ '/' := by
    intro c hc
    refine contentField_mem X c ?_ hc
    rcases hX with rfl | ⟨r, rfl⟩
    · exact Or.inl rfl
    · exact Or.inr (Or.inl ⟨r, rfl⟩)
  have hYmem : ∀ c ∈ Y, isWs c = false := by
    intro c hc
    refine (contentField_mem Y c ?_ hc).1
    rcases hY with rfl | ⟨n, rfl⟩
    · exact Or.inl rfl
    · exact Or.inr (Or.inr ⟨n, rfl⟩)
  constructor
  · rw [List.cons_append, trimLeft, List.dropWhile_cons, if_pos (by decide)]
    apply dropWhile_isWs_eq_self
    intro c hc
    rcases List.mem_append.mp hc with hc | hc
    · exact (hXmem c hc).1
    · rcases List.mem_cons.mp hc with rfl | hc
      · decide
      · exact hYmem c hc
  · exact splitFirst_append '/' X Y (fun hc => (hXmem '/' hc).2 rfl)

/-- Reduction of `ByteContentRange::from_str` on a rendered header body:
the prefix check passes and the split recovers the two rendered fields. -/
theorem contentRange_fromStr_fields (X Y : List Char)
    (hX : X = starTok ∨ (∃ r : ByteRange, X = r.render))
    (hY : Y = starTok ∨ ∃ n, Y = natChars n) :
    ByteContentRange.fromStr ((contentRangePrefixTok ++ (' ' :: X)) ++ ('/' :: Y))
      = contentParseFields X (some Y) := by
  have hsp := contentRange_split X Y hX hY
  have hpre : contentRangePrefixTok.isPrefixOf
      ((contentRangePrefixTok ++ (' ' :: X)) ++ ('/' :: Y)) = true := by
    rw [List.append_assoc, List.isPrefixOf_iff_prefix]
    exact List.prefix_append _ _
  have h5 : contentRangePrefixTok.length = 5 := rfl
  have hdrop : ((contentRangePrefixTok ++ (' ' :: X)) ++ ('/' :: Y)).drop 5
      = (' ' :: X) ++ ('/' :: Y) := by
    rw [List.append_assoc, ← h5, List.drop_left]
  rw [ByteContentRange.fromStr, if_neg (by rw [hpre]; simp), hdrop, hsp.1, hsp.2]

/-- The render side of the `ByteContentRange` round-trip. -/
theorem byteContentRange_fromStr_render (c : ByteContentRange)
    (h : c.wfB = true) :
    ByteContentRange.fromStr c.render = .ok c := by
  obtain ⟨szOpt, rOpt⟩ := c
  rw [ByteContentRange.wfB] at h
  simp only [Bool.and_eq_true, Bool.or_eq_true, decide_eq_true_eq] at h
  obtain ⟨⟨⟨hor, hrange⟩, hsize⟩, hlast⟩ := h
  rcases rOpt with _ | r
  · rcases szOpt with _ | sz
    · simp at hor
    · have hrender : ByteContentRange.render ⟨some sz, none⟩
          = (contentRangePrefixTok ++ (' ' :: starTok)) ++ ('/' :: natChars sz) := rfl
      rw [hrender, contentRange_fromStr_fields starTok (natChars sz)
        (Or.inl rfl) (Or.inr ⟨sz, rfl⟩)]
      have hYstar : natChars sz ≠ starTok := by
        intro hY
        have h' : '*' ∈ natChars sz := by rw [hY]; exact List.mem_singleton.mpr rfl
        exact (natChars_mem sz '*' h').2.2.2.2.2.2 rfl
      have hsz : sz < 2 ^ 64 := by simpa using hsize
      simp [contentParseFields, contentRangePart, contentSizePart,
        hYstar, parseU64_natChars sz hsz]
  · have hb : (r.start.isSome && r.end_.isSome && r.wfB) = true := hrange
    simp only [Bool.and_eq_true] at hb
    obtain ⟨⟨hs, he⟩, hwf⟩ := hb
    obtain ⟨a, ha⟩ := Option.isSome_iff_exists.mp hs
    obtain ⟨b, hbe⟩ := Option.isSome_iff_exists.mp he
    have hXr : r.render ≠ starTok := by
      intro hX
      have hmem : '-' ∈ r.render := by
        rw [ByteRange.render]
        exact List.mem_append.mpr (Or.inr (List.mem_cons_self _ _))
      rw [hX] at hmem
      have := List.mem_singleton.mp hmem
      exact absurd this (by decide)
    rcases szOpt with _ | sz
    · have hrender : ByteContentRange.render ⟨none, some r⟩
          = (contentRangePrefixTok ++ (' ' :: r.render)) ++ ('/' :: starTok) := rfl
      rw [hrender, contentRange_fromStr_fields r.render starTok
        (Or.inr ⟨r, rfl⟩) (Or.inl rfl)]
      simp [contentParseFields, contentRangePart, contentSizePart,
        hXr, byteRange_fromStr_render r hwf, ha, hbe]
    · have hrender : ByteContentRange.render ⟨some sz, some r⟩
          = (contentRangePrefixTok ++ (' ' :: r.render)) ++ ('/' :: natChars sz) := rfl
      rw [hrender, contentRange_fromStr_fields r.render (natChars sz)
        (Or.inr ⟨r, rfl⟩) (Or.inr ⟨sz, rfl⟩)]
      have hYstar : natChars sz ≠ starTok := by
        intro hY
        have h' : '*' ∈ natChars sz := by rw [hY]; exact List.mem_singleton.mpr rfl
        exact (natChars_mem sz '*' h').2.2.2.2.2.2 rfl
      have hsz : sz < 2 ^ 64 := by simpa using hsize
      have hblt : b < sz := by simpa [hbe] using hlast
      simp [contentParseFields, contentRangePart, contentSizePart,
        hXr, byteRange_fromStr_render r hwf, ha, hbe,
        hYstar, parseU64_natChars sz hsz, show ¬ (sz ≤ b) from by omega]

/-- The `match_size` loop of `ByteRanges` succeeds exactly when every range
fits, and fails with the 416 range error otherwise. -/
theorem matchSizeList_spec (n : Nat) (L : List ByteRange) :
    (matchSizeList n L = .ok () ↔ ∀ r ∈ L, r.matchSize n = true) ∧
    ((∃ r ∈ L, r.matchSize n = false) → matchSizeList n L = .error rangeErr416) := by
  induction L with
  | nil => simp [matchSizeList]
  | cons r rest ih =>
    by_cases hr : r.matchSize n = true
    · constructor
      · rw [matchSizeList, if_pos hr]
        rw [ih.1]
        constructor
        · intro h' x hx
          rcases List.mem_cons.mp hx with rfl | hx
          · exact hr
          · exact h' x hx
        · intro h' x hx
          exact h' x (List.mem_cons_of_mem r hx)
      · rintro ⟨x, hx, hfx⟩
        rw [matchSizeList, if_pos hr]
        rcases List.mem_cons.mp hx with rfl | hx
        · rw [hr] at hfx; cases hfx
        · exact ih.2 ⟨x, hx, hfx⟩
    · have hr' : r.matchSize n = false := by
        cases h' : r.matchSize n
        · rfl
        · exact absurd h' hr
      constructor
      · rw [matchSizeList, if_neg hr]
        constructor
        · intro h'; cases h'
        · intro h'
          exact absurd (h' r (List.mem_cons_self r rest)) hr
      · intro _
        rw [matchSizeList, if_neg hr]

/-- C1 fails as stated at size `0`: the wrapping `size - 1` makes
`match_size(0)` return `true` for a range whose present bound `0` is not
strictly less than `0`. -/
theorem c1_match_size_counterexample :
    ByteRange.matchSize ⟨some 0, none⟩ 0 = true ∧
    ¬ ((∀ a, (ByteRange.mk (some 0) none).start = some a → a < 0) ∧
       (∀ b, (ByteRange.mk (some 0) none).end_ = some b → b < 0)) := by
  refine ⟨by decide, fun hc => ?_⟩
  exact absurd (hc.1 0 rfl) (by omega)

/-- C1 (amended): for every size in `1 ≤ n < 2 ^ 64`, `ByteRange.matchSize`
is true iff every present bound is strictly below `n`; and for every size,
`ByteRanges.matchSize` is `Ok` iff every contained range matches, failing
with status 416 and the byte-ranges message otherwise. -/
theorem c1_match_size_amended :
    (∀ (r : ByteRange) (n : Nat), 1 ≤ n → n < 2 ^ 64 →
      (r.matchSize n = true ↔
        ((∀ a, r.start = some a → a < n) ∧ (∀ b, r.end_ = some b → b < n)))) ∧
    (∀ (rs : ByteRanges) (n : Nat),
      (rs.matchSize n = .ok () ↔ ∀ r ∈ rs.ranges, r.matchSize n = true) ∧
      ((∃ r ∈ rs.ranges, r.matchSize n = false) →
        rs.matchSize n = .error ⟨416, rangeMsg⟩)) := by
  constructor
  · intro r n h1 h2
    obtain ⟨st, en⟩ := r
    have hm : (n + (2 ^ 64 - 1)) % 2 ^ 64 = n - 1 := by omega
    rw [ByteRange.matchSize]
    simp only [hm]
    cases st <;> cases en <;>
      simp [boundFits] <;> omega
  · intro rs n
    exact matchSizeList_spec n rs.ranges

/-- Witness for the amended C1 at concrete inputs. -/
theorem c1_match_size_amended_witness :
    (ByteRange.matchSize ⟨some 0, some 4⟩ 5 = true ↔
      ((∀ a, (ByteRange.mk (some 0) (some 4)).start = some a → a < 5) ∧
       (∀ b, (ByteRange.mk (some 0) (some 4)).end_ = some b → b < 5))) ∧
    (ByteRanges.matchSize ⟨[⟨some 1, some 5⟩, ⟨none, some 10⟩]⟩ 6 = .ok ()
      ↔ ∀ r ∈ (ByteRanges.mk [⟨some 1, some 5⟩, ⟨none, some 10⟩]).ranges,
          r.matchSize 6 = true) :=
  ⟨c1_match_size_amended.1 ⟨some 0, some 4⟩ 5 (by omega) (by norm_num),
   (c1_match_size_amended.2 ⟨[⟨some 1, some 5⟩, ⟨none, some 10⟩]⟩ 6).1⟩

/-- C9: `match_size` computes `size - 1` in wrapping 64-bit arithmetic with
no zero guard: at `size = 0` the compared limit is `2 ^ 64 - 1`, so every
range with in-range bounds matches size `0`; checked subtraction of the
same expression underflows. -/
theorem c9_match_size_zero_wrap :
    ((0 : Nat) + (2 ^ 64 - 1)) % 2 ^ 64 = 2 ^ 64 - 1 ∧
    checkedSub 0 1 = none ∧
    (∀ r : ByteRange,
      (∀ a, r.start = some a → a < 2 ^ 64) →
      (∀ b, r.end_ = some b → b < 2 ^ 64) →
      r.matchSize 0 = true) := by
  refine ⟨by norm_num, rfl, ?_⟩
  intro r ha hb
  obtain ⟨st, en⟩ := r
  have hm : ((0 : Nat) + (2 ^ 64 - 1)) % 2 ^ 64 = 2 ^ 64 - 1 := by norm_num
  rw [ByteRange.matchSize]
  simp only [hm]
  cases st with
  | none =>
    cases en with
    | none => rfl
    | some b =>
      have := hb b rfl
      simp [boundFits]
      omega
  | some a =>
    have h1 := ha a rfl
    cases en with
    | none =>
      simp [boundFits]
      omega
    | some b =>
      have h2 := hb b rfl
      simp [boundFits]
      omega

/-- Witness for C9 at a concrete range. -/
theorem c9_match_size_zero_wrap_witness :
    ByteRange.matchSize ⟨some 5, none⟩ 0 = true :=
  c9_match_size_zero_wrap.2.2 ⟨some 5, none⟩
    (by intro a ha; cases ha; norm_num) (by intro b hb; cases hb)

/-- C4: an absent `Range`/`Content-Range` header yields absence without
error, and a present header whose last value does not carry the recognized
unit prefix also yields absence without error. -/
theorem c4_from_headers_absence :
    ByteRanges.fromHeaders none = .ok none ∧
    ByteContentRange.fromHeaders none = .ok none ∧
    (∀ (vals : List (List Char)) (s : List Char), vals.getLast? = some s →
      rangePrefixTok.isPrefixOf s = false →
      ByteRanges.fromHeaders (some vals) = .ok none) ∧
    (∀ (vals : List (List Char)) (s : List Char), vals.getLast? = some s →
      contentRangePrefixTok.isPrefixOf s = false →
      ByteContentRange.fromHeaders (some vals) = .ok none) := by
  refine ⟨rfl, rfl, ?_, ?_⟩
  · intro vals s hlast hpre
    rw [ByteRanges.fromHeaders, hlast]
    simp [hpre]
  · intro vals s hlast hpre
    rw [ByteContentRange.fromHeaders, hlast]
    simp [hpre]

/-- Witness for C4 at a concrete unrecognized-prefix header value. -/
theorem c4_from_headers_absence_witness :
    ByteRanges.fromHeaders (some ["foo=1-5".toList]) = .ok none ∧
    ByteContentRange.fromHeaders (some ["foo 1-5/10".toList]) = .ok none :=
  ⟨c4_from_headers_absence.2.2.1 ["foo=1-5".toList] "foo=1-5".toList
      (by decide) (by decide),
   c4_from_headers_absence.2.2.2 ["foo 1-5/10".toList] "foo 1-5/10".toList
      (by decide) (by decide)⟩

/-- C6: the claim says an empty `bytes=` list is rejected with status 400,
but splitting the empty remainder yields one empty fragment, which fails
byte-range parsing first — the code actually rejects `bytes=` with status
416; the explicit empty-list 400 branch is unreachable. -/
theorem c6_empty_bytes_actual_status :
    ByteRanges.fromStr rangePrefixTok = .error rangeErr416 ∧
    rangeErr416.status = 416 ∧ rangeErr400.status = 400 ∧
    ByteRanges.fromStr rangePrefixTok ≠ .error rangeErr400 := by
  refine ⟨by decide, rfl, rfl, by decide⟩

/-- C7: rendering produces exactly the canonical wire forms — comma-joined
ranges after `bytes=` with no space, and `bytes<SP><range-or-*>/<size-or-*>`
for Content-Range — checked both structurally and on the spec's examples. -/
theorem c7_render_canonical :
    (∀ rs : ByteRanges, rs.render
      = rangePrefixTok ++ List.intercalate [','] (rs.ranges.map ByteRange.render)) ∧
    (∀ r : ByteRange, r.render = optChars r.start ++ '-' :: optChars r.end_) ∧
    (∀ c : ByteContentRange, c.render
      = (contentRangePrefixTok ++ (' ' :: Option.elim c.range starTok ByteRange.render))
        ++ ('/' :: Option.elim c.size starTok natChars)) ∧
    ByteRanges.render ⟨[⟨some 1, some 5⟩, ⟨none, some 5⟩]⟩ = "bytes=1-5,-5".toList ∧
    ByteRange.render ⟨some 1, none⟩ = "1-".toList ∧
    ByteRange.render ⟨none, some 5⟩ = "-5".toList ∧
    ByteContentRange.render ⟨some 100, some ⟨some 1, some 5⟩⟩ = "bytes 1-5/100".toList ∧
    ByteContentRange.render ⟨none, some ⟨some 1, some 5⟩⟩ = "bytes 1-5/*".toList ∧
    ByteContentRange.render ⟨some 100, none⟩ = "bytes */100".toList := by
  refine ⟨?_, fun _ => rfl, ?_, by decide, by decide, by decide, by decide,
    by decide, by decide⟩
  · intro rs
    rw [ByteRanges.render, joinComma_eq_intercalate]
  · intro c
    obtain ⟨szOpt, rOpt⟩ := c
    rcases rOpt with _ | r <;> rcases szOpt with _ | sz <;> rfl

/-- C8: `AcceptRanges` parsing never fails — `none` maps to the absent unit,
`bytes` to the bytes unit, anything else is carried verbatim — and
rendering is a left inverse of parsing. -/
theorem c8_accept_ranges_total :
    (∀ s, AcceptRanges.fromStr s =
      .ok (if s = noneTok then AcceptRanges.new
           else if s = contentRangePrefixTok then AcceptRanges.withBytes
           else AcceptRanges.withOther s)) ∧
    (∀ s, (AcceptRanges.fromStr s).map AcceptRanges.render = .ok s) ∧
    AcceptRanges.render AcceptRanges.new = noneTok ∧
    AcceptRanges.render AcceptRanges.withBytes = contentRangePrefixTok ∧
    (∀ s, AcceptRanges.render (AcceptRanges.withOther s) = s) := by
  refine ⟨fun s => rfl, ?_, rfl, rfl, fun s => rfl⟩
  intro s
  rw [AcceptRanges.fromStr, Except.map]
  by_cases h1 : s = noneTok
  · rw [if_pos h1, h1]; rfl
  · rw [if_neg h1]
    by_cases h2 : s = contentRangePrefixTok
    · rw [if_pos h2, h2]; rfl
    · rw [if_neg h2]; rfl

/-- C5 fails as stated: a constructible `ByteRange` with no bounds renders
as `-`, which does not parse back. -/
theorem c5_roundtrip_counterexample :
    ByteRange.fromStr (ByteRange.render ⟨none, none⟩) ≠ .ok ⟨none, none⟩ := by
  decide

/-- C5 (amended): parsing inverts rendering on every structured value that
satisfies its type's parse-compatible validity invariant — a `ByteRange`
with at least one bound, `start < end` when both are present and bounds in
`u64` range; a non-empty `ByteRanges` of such ranges; a `ByteContentRange`
that is not both-absent, whose range carries both bounds with
`end < size` when a size is present; an `AcceptRanges` whose stored token,
if any, is not a reserved wire token and comes with the bytes flag unset. -/
theorem c5_roundtrip_amended :
    (∀ r : ByteRange, r.wfB = true → ByteRange.fromStr r.render = .ok r) ∧
    (∀ rs : ByteRanges, rs.wfB = true → ByteRanges.fromStr rs.render = .ok rs) ∧
    (∀ c : ByteContentRange, c.wfB = true →
      ByteContentRange.fromStr c.render = .ok c) ∧
    (∀ a : AcceptRanges, a.wfB = true → AcceptRanges.fromStr a.render = .ok a) :=
  ⟨byteRange_fromStr_render, byteRanges_fromStr_render,
   byteContentRange_fromStr_render, acceptRanges_fromStr_render⟩

/-- Witness for the amended C5 on the spec's example values. -/
theorem c5_roundtrip_amended_witness :
    ByteRange.fromStr (ByteRange.render ⟨some 1, some 5⟩) = .ok ⟨some 1, some 5⟩ ∧
    ByteRanges.fromStr (ByteRanges.render ⟨[⟨some 1, some 5⟩, ⟨none, some 5⟩]⟩)
      = .ok ⟨[⟨some 1, some 5⟩, ⟨none, some 5⟩]⟩ ∧
    ByteContentRange.fromStr
        (ByteContentRange.render ⟨some 100, some ⟨some 1, some 5⟩⟩)
      = .ok ⟨some 100, some ⟨some 1, some 5⟩⟩ ∧
    AcceptRanges.fromStr (AcceptRanges.render ⟨false, some "my_custom_unit".toList⟩)
      = .ok ⟨false, some "my_custom_unit".toList⟩ :=
  ⟨c5_roundtrip_amended.1 ⟨some 1, some 5⟩ (by decide),
   c5_roundtrip_amended.2.1 ⟨[⟨some 1, some 5⟩, ⟨none, some 5⟩]⟩ (by decide),
   c5_roundtrip_amended.2.2.1 ⟨some 100, some ⟨some 1, some 5⟩⟩ (by decide),
   c5_roundtrip_amended.2.2.2 ⟨false, some "my_custom_unit".toList⟩ (by decide)⟩

/-- C10: a Content-Range value `bytes n-n/m` with equal range bounds always
fails with the 416 Content-Range error, because the left field goes through
`ByteRange::from_str`'s strict `end > start` rule. -/
theorem c10_content_range_equal_bounds (n m : Nat)
    (hn : n < 2 ^ 64) (_hm : m < 2 ^ 64) :
    ByteContentRange.fromStr
        ((contentRangePrefixTok ++ (' ' :: (natChars n ++ '-' :: natChars n)))
          ++ ('/' :: natChars m))
      = .error ⟨416, contentRangeMsg⟩ := by
  have hXeq : natChars n ++ '-' :: natChars n
      = (ByteRange.mk (some n) (some n)).render := rfl
  have hXbad : ByteRange.fromStr (natChars n ++ '-' :: natChars n)
      = .error rangeErr416 := by
    have htrim : trim (natChars n ++ '-' :: natChars n)
        = natChars n ++ '-' :: natChars n := by
      apply trim_eq_self
      intro c hc
      rcases List.mem_append.mp hc with hc | hc
      · exact (natChars_mem n c hc).2.1
      · rcases List.mem_cons.mp hc with rfl | hc
        · decide
        · exact (natChars_mem n c hc).2.1
    have hsb : strToBound (some (natChars n)) = .ok (some n) := by
      rw [strToBound, if_neg (natChars_ne_nil n), parseU64_natChars n hn]
    rw [ByteRange.fromStr, htrim,
      splitFirst_append '-' (natChars n) (natChars n)
        (fun hc => (natChars_mem n '-' hc).2.2.1 rfl)]
    simp [hsb]
  have hXstar : natChars n ++ '-' :: natChars n ≠ starTok := by
    intro hX
    have hmem : '-' ∈ natChars n ++ '-' :: natChars n :=
      List.mem_append.mpr (Or.inr (List.mem_cons_self _ _))
    rw [hX] at hmem
    exact absurd (List.mem_singleton.mp hmem) (by decide)
  rw [contentRange_fromStr_fields (natChars n ++ '-' :: natChars n) (natChars m)
    (Or.inr ⟨⟨some n, some n⟩, hXeq⟩) (Or.inr ⟨m, rfl⟩)]
  rw [contentParseFields, contentRangePart, if_neg hXstar, hXbad]
  rfl

/-- Witness for C10 at `bytes 5-5/100`. -/
theorem c10_content_range_equal_bounds_witness :
    ByteContentRange.fromStr
        ((contentRangePrefixTok ++ (' ' :: (natChars 5 ++ '-' :: natChars 5)))
          ++ ('/' :: natChars 100))
      = .error ⟨416, contentRangeMsg⟩ :=
  c10_content_range_equal_bounds 5 100 (by norm_num) (by norm_num)

/-- `str_to_bound` agrees with the claim's per-field rule. -/
theorem strToBound_claimBound (f : List Char) :
    strToBound (some f) = (match claimBound f with
      | none => .error rangeErr416
      | some b => .ok b) := by
  rw [strToBound, claimBound]
  by_cases hf : f = []
  · simp [hf]
  · rw [if_neg hf, if_neg hf]
    cases hp : parseU64 f <;> simp

/-- C2: `ByteRange::from_str` trims, splits on the first `-`, and returns
the two optional bounds, rejecting with status 416 and the byte-ranges
message exactly when both bounds are absent, a non-empty field is not a
valid `u64`, or both bounds are present with `end ≤ start`. -/
theorem c2_byte_range_from_str :
    ∀ s : List Char,
      ByteRange.fromStr s =
        if ByteRange.claimRejects s then .error ⟨416, rangeMsg⟩
        else .ok ⟨(ByteRange.claimStart s).join, (ByteRange.claimEnd s).join⟩ := by
  intro s
  have hsb1 : strToBound (some ((splitFirst '-' (trim s)).1))
      = (match ByteRange.claimStart s with
        | none => .error rangeErr416
        | some b => .ok b) :=
    strToBound_claimBound _
  have hsb2 : strToBound ((splitFirst '-' (trim s)).2)
      = (match ByteRange.claimEnd s with
        | none => .error rangeErr416
        | some b => .ok b) := by
    rw [ByteRange.claimEnd]
    cases h2 : (ByteRange.claimFields s).2 with
    | none =>
      have h2' : (splitFirst '-' (trim s)).2 = none := h2
      rw [h2']
      rfl
    | some g =>
      have h2' : (splitFirst '-' (trim s)).2 = some g := h2
      rw [h2']
      exact strToBound_claimBound g
  rw [ByteRange.fromStr, hsb1, hsb2, ByteRange.claimRejects]
  rcases ByteRange.claimStart s with _ | (_ | a) <;>
    rcases ByteRange.claimEnd s with _ | (_ | b)
  all_goals try rfl
  by_cases hba : b ≤ a
  · simp [hba, rangeErr416]
  · simp [hba]

/-- The left-field computation agrees with the claim's left-field rule. -/
theorem contentRangePart_claimRange (s : List Char) :
    contentRangePart (ByteContentRange.claimFields s).1
      = (match ByteContentRange.claimRange s with
        | none => .error contentRangeErr416
        | some r => .ok r) := by
  rw [contentRangePart, ByteContentRange.claimRange]
  by_cases hst : (ByteContentRange.claimFields s).1 = starTok
  · rw [if_pos hst, if_pos hst]
  · rw [if_neg hst, if_neg hst]
    cases hbr : ByteRange.fromStr (ByteContentRange.claimFields s).1 with
    | error e => rfl
    | ok r =>
      rcases hr : r.start with _ | a <;> rcases he : r.end_ with _ | b <;>
        simp [hr, he]

/-- The right-field computation agrees with the claim's right-field rule. -/
theorem contentSizePart_claimSize (s : List Char) :
    contentSizePart (ByteContentRange.claimFields s).2
      = (match ByteContentRange.claimSize s with
        | none => .error contentRangeErr416
        | some sz => .ok sz) := by
  rw [ByteContentRange.claimSize]
  cases h2 : (ByteContentRange.claimFields s).2 with
  | none => rfl
  | some g =>
    by_cases hst : g = starTok
    · simp [contentSizePart, hst]
    · rw [contentSizePart, if_neg hst]
      cases hp : parseU64 g <;> simp [hst, hp]

/-- C3: on a `bytes`-prefixed input, `ByteContentRange::from_str` returns
the parsed optional range and optional size, rejecting with status 416 and
the Content-Range message exactly when the left field is neither `*` nor a
both-bounded byte-range, the right field is missing or neither `*` nor a
valid `u64`, both parts are absent, or `size ≤ range.end`. -/
theorem c3_content_range_from_str (s : List Char)
    (hpre : contentRangePrefixTok.isPrefixOf s = true) :
    ByteContentRange.fromStr s =
      if ByteContentRange.claimRejects s then .error ⟨416, contentRangeMsg⟩
      else .ok ⟨(ByteContentRange.claimSize s).join,
                (ByteContentRange.claimRange s).join⟩ := by
  rw [ByteContentRange.fromStr, if_neg (by rw [hpre]; simp)]
  change contentParseFields (ByteContentRange.claimFields s).1
    (ByteContentRange.claimFields s).2 = _
  rw [contentParseFields, contentRangePart_claimRange s,
    contentSizePart_claimSize s, ByteContentRange.claimRejects]
  rcases ByteContentRange.claimRange s with _ | (_ | r) <;>
    rcases ByteContentRange.claimSize s with _ | (_ | sz)
  all_goals try rfl
  rcases he : r.end_ with _ | en
  · simp [he]
  · by_cases hse : sz ≤ en
    · simp [he, hse, contentRangeErr416]
    · simp [he, hse]

/-- Witness for C3 at the spec's `bytes */*` rejection example. -/
theorem c3_content_range_from_str_witness :
    ByteContentRange.fromStr "bytes */*".toList =
      if ByteContentRange.claimRejects "bytes */*".toList
      then .error ⟨416, contentRangeMsg⟩
      else .ok ⟨(ByteContentRange.claimSize "bytes */*".toList).join,
                (ByteContentRange.claimRange "bytes */*".toList).join⟩ :=
  c3_content_range_from_str "bytes */*".toList (by decide)
